import Mathlib

/-!
# GitTool — verification of the specified storage / history / diff engine

The C++ source (`src/GitTool.cpp`) is a thin exerciser of libgit2: it opens a
repository, resolves the ref "master", and walks the first-parent chain
printing a patch between each commit and its first parent (`findAllOnMaster`,
`dumpDiff`, `create_initial_commit`, `main`).  The object store, tree builder,
commit graph, ref store and diff engine live inside the linked library, so
those components are modelled here from the specification's component design
(each such definition carries a `Modelled from the spec:` doc comment); the
control flow of the walk, of initial-commit creation and of `main` is embedded
from the C++ source itself.
-/

namespace GitTool

/-! ## Raw content-addressed object store (spec §4.1)

`Bytes` stands for a byte payload, `RawId` for the digest used as the storage
key.  The cryptographic digest is modelled as the canonical serialization
`typeTag ‖ bytes` itself, the standard idealization of a collision-free hash:
identical content gives an identical id, distinct content a distinct id. -/

/-- A byte payload. -/
abbrev Bytes := List Nat

/-- The digest used to key the raw object store. -/
abbrev RawId := List Nat

/-- Modelled from the spec: `ObjectStore` ids — "computes id = digest(typeTag
‖ bytes)"; the digest is idealized as the tagged serialization itself. -/
def rawDigest (typeTag : Nat) (payload : Bytes) : RawId :=
  typeTag :: payload

/-- Modelled from the spec: the `ObjectStore` contents, a list of
(id, serialized payload) pairs in insertion order. -/
abbrev RawStore := List (RawId × Bytes)

/-- Whether the store already holds an object with the given id. -/
def RawStore.hasId (s : RawStore) (id : RawId) : Bool :=
  s.any (fun e => e.1 == id)

/-- Modelled from the spec: `ObjectStore.write(typeTag, bytes) -> ObjectId`
— "computes id = digest(typeTag ‖ bytes); if an object with that id already
exists, no-op (dedupe); otherwise persists it."  Returns the id and the
updated store. -/
def RawStore.write (s : RawStore) (typeTag : Nat) (payload : Bytes) :
    RawId × RawStore :=
  let id := rawDigest typeTag payload
  if s.hasId id then (id, s) else (id, (id, payload) :: s)

/-- How many stored copies the store holds under a given id. -/
def RawStore.countId (s : RawStore) (id : RawId) : Nat :=
  s.countP (fun e => e.1 == id)

/-- Ids of a raw store, for the no-duplicates invariant. -/
def RawStore.ids (s : RawStore) : List RawId := s.map Prod.fst

/-! ## Typed objects (spec §3)

`Ident`, `TreeEntry`, `CommitData` and `GitObject` are the data model of
spec §3.  `digest` models the content digest of a serialized object as a
`Nat`; the three object kinds land in distinct residue classes mod 3, which
models the type tag that prefixes the serialization. -/

/-- Authorship metadata: (name, email, timestamp), spec §3 `Commit`. -/
structure Ident where
  name : String
  email : String
  time : Nat
deriving DecidableEq

/-- Entry modes of spec §3 `TreeEntry`. -/
inductive EntryMode where
  | file
  | executable
  | directory
deriving DecidableEq

/-- Modelled from the spec: `TreeEntry` — (name, mode, target ObjectId). -/
structure TreeEntry where
  name : String
  mode : EntryMode
  target : Nat
deriving DecidableEq

/-- Modelled from the spec: `Commit` — tree id, ordered parent ids,
author/committer, message. -/
structure CommitData where
  tree : Nat
  parents : List Nat
  author : Ident
  committer : Ident
  message : String
deriving DecidableEq

/-- Modelled from the spec: the three kinds of stored object. -/
inductive GitObject where
  | blob (content : List Nat)
  | tree (entries : List TreeEntry)
  | commit (data : CommitData)
deriving DecidableEq

def hashBytes (l : List Nat) : Nat :=
  l.foldl (fun a b => (a * 31 + b + 1) % 29) 7

def hashString (s : String) : Nat :=
  hashBytes (s.data.map Char.toNat)

def modeCode : EntryMode → Nat
  | .file => 0
  | .executable => 1
  | .directory => 2

def hashEntry (e : TreeEntry) : Nat :=
  ((hashString e.name * 4 + modeCode e.mode) * 31 + e.target) % 29

def hashEntries (es : List TreeEntry) : Nat :=
  es.foldl (fun a e => (a * 31 + hashEntry e + 1) % 29) 11

def hashIdent (i : Ident) : Nat :=
  ((hashString i.name * 31 + hashString i.email) * 31 + i.time) % 29

def hashCommit (c : CommitData) : Nat :=
  ((((c.tree * 31 +
        c.parents.foldl (fun a p => (a * 31 + p + 1) % 29) 13) * 31 +
      hashIdent c.author) * 31 + hashIdent c.committer) * 31 +
    hashString c.message) % 29

/-- Modelled from the spec: `ObjectId` — "digest computed over a canonical
serialization of an object's type tag + payload".  The type tag is modelled
by the residue mod 3, so objects of different kinds never share an id. -/
def digest : GitObject → Nat
  | .blob c => 3 * hashBytes c
  | .tree es => 3 * hashEntries es + 1
  | .commit cd => 3 * hashCommit cd + 2

/-- The typed object store: (id, object) pairs in insertion order. -/
abbrev Store := List (Nat × GitObject)

def Store.ids (s : Store) : List Nat := s.map Prod.fst

def Store.hasId (s : Store) (id : Nat) : Bool :=
  s.any (fun e => e.1 == id)

/-- Modelled from the spec: `ObjectStore.write` at the typed level — compute
the digest, dedupe if the id is already present, else persist. -/
def Store.writeObj (s : Store) (o : GitObject) : Nat × Store :=
  let id := digest o
  if s.hasId id then (id, s) else (id, (id, o) :: s)

/-- Modelled from the spec: `CommitGraph.lookup` — find the object stored
under an id and parse it as a commit. -/
def Store.lookupCommit (s : Store) (id : Nat) : Option CommitData :=
  match s.find? (fun e => e.1 == id) with
  | some (_, .commit cd) => some cd
  | _ => none

/-! ## Ref store, errors and the repository operations (spec §4.3, §4.4, §4.6, §7) -/

/-- The error kinds of spec §7. -/
inductive GitError where
  | notFound
  | corruptObject
  | duplicateEntry
  | danglingReference
  | unresolvedRef
  | alreadyExists
  | notARepository
  | missingIdentity
  | storageError
deriving DecidableEq

/-- Modelled from the spec: `RefStore` — mutable mapping from symbolic names
to commit ids, last write wins (newest binding first). -/
abbrev RefStore := List (String × Nat)

/-- Modelled from the spec: `RefStore.resolve(name)` — the current binding of
a name, if any. -/
def resolveRef (refs : RefStore) (name : String) : Option Nat :=
  (refs.find? (fun e => e.1 == name)).map Prod.snd

/-- The visible repository state: one object store plus one ref store. -/
structure RepoState where
  store : Store
  refs : RefStore
deriving DecidableEq

/-- Modelled from the spec: `RefStore.update(name, id)` — "overwrites mapping;
must check that id exists in the ObjectStore before accepting (fails with
DanglingReferenceError otherwise)".  Returns the outcome together with the
state observable afterwards; on failure that state is the input state. -/
def updateRef (st : RepoState) (name : String) (id : Nat) :
    Except GitError Unit × RepoState :=
  if Store.hasId st.store id then
    (.ok (), ⟨st.store, (name, id) :: st.refs⟩)
  else
    (.error .danglingReference, st)

/-- Modelled from the spec: `CommitGraph.create` — "validates treeId and every
parent id exist in the ObjectStore (fails with DanglingReferenceError
otherwise); serializes and writes via ObjectStore; returns new commit id." -/
def CommitGraph.create (st : RepoState) (treeId : Nat) (parents : List Nat)
    (author committer : Ident) (message : String) :
    Except GitError Nat × RepoState :=
  if (treeId :: parents).all (fun p => Store.hasId st.store p) then
    let r := Store.writeObj st.store
      (.commit ⟨treeId, parents, author, committer, message⟩)
    (.ok r.1, ⟨r.2, st.refs⟩)
  else
    (.error .danglingReference, st)

/-- Modelled from the spec: commit creation followed by the branch-ref update
(spec §7 "no partial-state commit").  On any failing step the observable
state is the input state. -/
def commitAndUpdateRef (st : RepoState) (name : String) (treeId : Nat)
    (parents : List Nat) (author committer : Ident) (message : String) :
    Except GitError Nat × RepoState :=
  let cr := CommitGraph.create st treeId parents author committer message
  match cr.1 with
  | .error e => (.error e, st)
  | .ok cid =>
      match (updateRef cr.2 name cid).1 with
      | .error e => (.error e, st)
      | .ok _ => (.ok cid, (updateRef cr.2 name cid).2)

/-- The empty tree object written by the initial commit. -/
def emptyTreeObj : GitObject := .tree []

/-- The zero-parent commit object that `createInitialCommit` creates: it
references the empty tree and carries the message "Initial commit"
(`create_initial_commit` in the source). -/
def initialCommitObj (sig : Ident) : GitObject :=
  .commit ⟨digest emptyTreeObj, [], sig, sig, "Initial commit"⟩

/-- The operation `createInitialCommit`, embedded from `create_initial_commit` in the
source: determine the author signature (fails like the source's
`git_signature_default` when no identity is configured, the
`MissingIdentityError` of the spec), write the empty tree from the empty
index, create a commit with that tree and zero parents and message
"Initial commit", and update the named ref to it.  The storage and ref
operations it drives are the spec-modelled ones above. -/
def createInitialCommit (ident : Option Ident) (refName : String)
    (st : RepoState) : Except GitError Nat × RepoState :=
  match ident with
  | none => (.error .missingIdentity, st)
  | some sig =>
      let r := Store.writeObj st.store emptyTreeObj
      let st1 : RepoState := ⟨r.2, st.refs⟩
      match CommitGraph.create st1 r.1 [] sig sig "Initial commit" with
      | (.error e, _) => (.error e, st)
      | (.ok cid, st2) =>
          match updateRef st2 refName cid with
          | (.error e, _) => (.error e, st)
          | (.ok _, st3) => (.ok cid, st3)

/-! ## Acyclicity of the commit graph (spec §4.3) -/

/-- One parent link in the stored commit graph: `a` is a stored commit and
`b` is one of its parents. -/
def ParentStep (s : Store) (a b : Nat) : Prop :=
  ∃ cd : CommitData, (a, GitObject.commit cd) ∈ s ∧ b ∈ cd.parents

/-- The creation-order invariant: some rank function strictly decreases along
parent links, and every parent of a stored commit is itself stored. -/
def HasRank (s : Store) : Prop :=
  ∃ rank : Nat → Nat, ∀ id cd, (id, GitObject.commit cd) ∈ s →
    ∀ p ∈ cd.parents, p ∈ Store.ids s ∧ rank p < rank id

/-- Store states reachable by the spec's operations: the empty store, blob
and tree writes, and commit creation through `CommitGraph.create`. -/
inductive ReachableStore : Store → Prop where
  | empty : ReachableStore []
  | writeNonCommit (s : Store) (o : GitObject)
      (ho : ∀ cd : CommitData, o ≠ .commit cd) :
      ReachableStore s → ReachableStore (Store.writeObj s o).2
  | create (s : Store) (refs : RefStore) (treeId : Nat) (parents : List Nat)
      (a c : Ident) (m : String) : ReachableStore s →
      ReachableStore
        (CommitGraph.create ⟨s, refs⟩ treeId parents a c m).2.store

/-! ## The first-parent history walk (`findAllOnMaster` in the source)

`walkFuel` embeds the `while (commit)` loop of `findAllOnMaster`: visit the
current commit; if it has no parent, stop (the `break` before any diff);
otherwise look up the first parent, compute the diff of the parent tree
against the current tree (`dumpDiff`), and continue from the parent.  Each
visited commit is paired with the tree pair that was diffed at that step —
`none` for the root commit, for which the source computes no diff.  The
explicit fuel makes the loop total; termination is the content of C1. -/

def walkFuel (s : Store) : Nat → Nat → Option (List (Nat × Option (Nat × Nat)))
  | 0, _ => none
  | n + 1, c =>
      match Store.lookupCommit s c with
      | none => none
      | some cm =>
          match cm.parents with
          | [] => some [(c, none)]
          | p :: _ =>
              match Store.lookupCommit s p with
              | none => none
              | some pm =>
                  (walkFuel s n p).map
                    (fun rest => (c, some (pm.tree, cm.tree)) :: rest)

/-- The walk `walkHistory(refName)`: resolve the ref (`git_revparse_single` on
"master" in the source) and walk the first-parent chain from it. -/
def walkHistory (st : RepoState) (name : String) (fuel : Nat) :
    Option (List (Nat × Option (Nat × Nat))) :=
  match resolveRef st.refs name with
  | none => none
  | some c => walkFuel st.store fuel c

/-- The first-parent chain from a commit down to the root, newest first. -/
inductive FPChain (s : Store) : Nat → List Nat → Prop where
  | root (c : Nat) (cm : CommitData) :
      Store.lookupCommit s c = some cm → cm.parents = [] → FPChain s c [c]
  | step (c : Nat) (cm : CommitData) (p : Nat) (ps : List Nat) (l : List Nat) :
      Store.lookupCommit s c = some cm → cm.parents = p :: ps →
      FPChain s p l → FPChain s c (c :: l)

/-! ## TreeBuilder (spec §4.2) -/

instance : IsTotal TreeEntry (fun a b => a.name ≤ b.name) :=
  ⟨fun a b => le_total a.name b.name⟩

instance : IsTrans TreeEntry (fun a b => a.name ≤ b.name) :=
  ⟨fun _ _ _ h1 h2 => le_trans h1 h2⟩

instance : IsAntisymm TreeEntry (fun a b => a.name < b.name) :=
  ⟨fun _ _ h1 h2 => absurd h2 (lt_asymm h1)⟩

/-- Modelled from the spec: `TreeBuilder.build(entries)` — "entries must have
unique names (fails with DuplicateEntryError otherwise); serializes in
name-sorted order; delegates to ObjectStore.write". -/
def TreeBuilder.build (s : Store) (es : List TreeEntry) :
    Except GitError (Nat × Store) :=
  if (es.map TreeEntry.name).Nodup then
    .ok (Store.writeObj s
      (.tree (es.insertionSort (fun a b => a.name ≤ b.name))))
  else
    .error .duplicateEntry

/-! ## `main` (src/GitTool.cpp lines 208-235)

`main` wraps its whole body in `try { ... } catch (...) { ... }` and ends
with `return 0` outside the catch, so every execution — including ones where
library setup, opening the repository, or the history walk throws — exits
with status 0.  `MainEnv` records the outcome of each fallible step of the
body. -/

/-- Outcomes of the fallible steps `main` performs: `git_libgit2_init`,
`open_repo`, and `findAllOnMaster` (the last as a whole, since any of its
internal calls may throw). -/
structure MainEnv where
  gitStartOk : Bool
  openOk : Bool
  walkResult : Except String Unit

/-- The body of `main`'s try-block: each failing step throws, modelled as
`Except.error` with the message passed to `throwOnGitError`. -/
def mainBody (e : MainEnv) : Except String Unit :=
  if e.gitStartOk = false then .error "Git initialization failed."
  else if e.openOk = false then .error "Could not open repository."
  else e.walkResult

/-- The entry point `main` embedded from the source: run the body, catch every exception,
and return 0 regardless. -/
def mainExit (e : MainEnv) : Nat :=
  match mainBody e with
  | .ok _ => 0
  | .error _ => 0

/-! ## Scope-exit guards of `create_initial_commit` (src/GitTool.cpp 78-118)

`create_initial_commit` registers `BOOST_SCOPE_EXIT_ALL` guards after each
successful acquisition: `git_signature_free(sig)` at line 85,
`git_index_free(index)` at line 90, **again** `git_index_free(index)` at
line 96 (where a guard for the tree written from the index might have been
intended), and `git_tree_free(tree)` at line 101.  Guards run in reverse
registration order when the scope exits, on success and on throw alike.
`createInitialCommitFrees` lists the free calls actually executed for each
combination of step outcomes. -/

/-- A release call performed by a scope-exit guard. -/
inductive FreeEvent where
  | sig
  | index
  | tree
deriving DecidableEq

/-- Outcomes of the fallible libgit2 calls inside `create_initial_commit`:
`git_signature_default`, `git_repository_index`, `git_index_write_tree`,
`git_tree_lookup`, `git_commit_create`. -/
structure GuardEnv where
  sigOk : Bool
  indexOk : Bool
  writeTreeOk : Bool
  lookupOk : Bool
  commitOk : Bool

/-- The sequence of frees run by the scope-exit guards of
`create_initial_commit`, in execution (reverse registration) order, for a
given combination of call outcomes.  The guards registered at lines 90 and
96 both free `index`; `git_commit_create`'s outcome registers no further
guard, so the success path and the commit-failure path free the same
handles. -/
def createInitialCommitFrees (e : GuardEnv) : List FreeEvent :=
  if e.sigOk = false then []
  else if e.indexOk = false then [.sig]
  else if e.writeTreeOk = false then [.index, .sig]
  else if e.lookupOk = false then [.index, .index, .sig]
  else [.tree, .index, .index, .sig]

/-! ## DiffEngine (spec §4.5)

The diff engine compares two tree objects entry-by-entry keyed by name,
recursing into subtrees.  `TObj`/`TEntries` are the in-memory tree objects
the engine walks (entries listed in the name-sorted order trees are stored
in); a blob entry carries the content id of the blob. -/

mutual
inductive TObj where
  | blob (id : Nat) : TObj
  | tree (entries : TEntries) : TObj
inductive TEntries where
  | nil : TEntries
  | cons (name : String) (child : TObj) (rest : TEntries) : TEntries
end

/-- Modelled from the spec: a `PathChange` — Added / Removed for a name
present on exactly one side, Modified for blob entries whose content ids
differ. -/
inductive PathChange where
  | added (path : List String) (obj : TObj)
  | removed (path : List String) (obj : TObj)
  | modified (path : List String) (oldId newId : Nat)

/-- Swapping the two sides of a diff: Added becomes Removed and conversely,
Modified swaps its old and new content ids. -/
def mirrorChange : PathChange → PathChange
  | .added p o => .removed p o
  | .removed p o => .added p o
  | .modified p i j => .modified p j i

/-- The path a change is reported at. -/
def changePath : PathChange → List String
  | .added p _ => p
  | .removed p _ => p
  | .modified p _ _ => p

mutual
/-- Modelled from the spec: the recursive comparison underlying
`diffTrees` — equal blob ids produce nothing, differing blob ids a Modified
entry, a tree/blob type change Removed+Added, and two trees are compared
entry-by-entry. -/
def diffObj (pre : List String) : TObj → TObj → List PathChange
  | .blob i, .blob j => if i = j then [] else [.modified pre i j]
  | .blob i, .tree t => [.removed pre (.blob i), .added pre (.tree t)]
  | .tree s, .blob j => [.removed pre (.tree s), .added pre (.blob j)]
  | .tree s, .tree t => diffEntries pre s t
termination_by a b => sizeOf a + sizeOf b
/-- Modelled from the spec: merge of two name-sorted entry lists — a name
present on one side only yields Added or Removed, a shared name recurses. -/
def diffEntries (pre : List String) : TEntries → TEntries → List PathChange
  | .nil, .nil => []
  | .nil, .cons n o r => .added (pre ++ [n]) o :: diffEntries pre .nil r
  | .cons n o r, .nil => .removed (pre ++ [n]) o :: diffEntries pre r .nil
  | .cons n1 o1 r1, .cons n2 o2 r2 =>
      if n1 < n2 then
        .removed (pre ++ [n1]) o1 :: diffEntries pre r1 (.cons n2 o2 r2)
      else if n2 < n1 then
        .added (pre ++ [n2]) o2 :: diffEntries pre (.cons n1 o1 r1) r2
      else
        diffObj (pre ++ [n1]) o1 o2 ++ diffEntries pre r1 r2
termination_by a b => sizeOf a + sizeOf b
end

/-- Modelled from the spec: `diffTrees` — the path-level changes between two
tree objects, paths rooted at the empty prefix. -/
def diffTrees (a b : TObj) : List PathChange :=
  diffObj [] a b

theorem RawStore.hasId_exists_iff (s : RawStore) (id : RawId) :
    s.hasId id = true ↔ ∃ e ∈ s, e.1 = id := by
  simp [RawStore.hasId, List.any_eq_true]

theorem RawStore.countId_pos_of_hasId (s : RawStore) (id : RawId)
    (h : s.hasId id = true) : 0 < RawStore.countId s id := by
  rcases (RawStore.hasId_exists_iff s id).1 h with ⟨e, he, hid⟩
  exact List.countP_pos_iff.2 ⟨e, he, by simp [hid]⟩

theorem RawStore.countId_le_one_of_nodup (s : RawStore) (id : RawId)
    (h : (RawStore.ids s).Nodup) : RawStore.countId s id ≤ 1 := by
  induction s with
  | nil => simp [RawStore.countId]
  | cons e t ih =>
      have hnd : (RawStore.ids t).Nodup := by
        have := h; simp [RawStore.ids, List.nodup_cons] at this
        exact this.2
      have hnotin : e.1 ∉ RawStore.ids t := by
        have := h; simp [RawStore.ids, List.nodup_cons] at this
        intro hmem
        rcases List.mem_map.1 hmem with ⟨a, ha, hfst⟩
        exact this.1 a.2 (by rw [← hfst]; simpa using ha)
      rw [RawStore.countId, List.countP_cons]
      by_cases he : e.1 = id
      · have ht0 : RawStore.countId t id = 0 := by
          rw [RawStore.countId, List.countP_eq_zero]
          intro a ha
          simp only [beq_iff_eq]
          intro hid
          exact hnotin (List.mem_map.2 ⟨a, ha, by rw [hid, he]⟩)
        rw [RawStore.countId] at ht0
        simp [ht0, he]
      · have := ih hnd
        rw [RawStore.countId] at this
        simpa [he] using this

theorem RawStore.countId_write_self (s : RawStore) (tag : Nat) (p : Bytes)
    (h : (RawStore.ids s).Nodup) :
    RawStore.countId (s.write tag p).2 (rawDigest tag p) = 1 := by
  rw [RawStore.write]
  by_cases hin : s.hasId (rawDigest tag p) = true
  · simp only [hin, if_pos]
    have h1 := RawStore.countId_pos_of_hasId s (rawDigest tag p) hin
    have h2 := RawStore.countId_le_one_of_nodup s (rawDigest tag p) h
    omega
  · simp only [hin, Bool.false_eq_true, if_false]
    have ht0 : RawStore.countId s (rawDigest tag p) = 0 := by
      rw [RawStore.countId, List.countP_eq_zero]
      intro a ha
      simp only [beq_iff_eq]
      intro hid
      exact hin ((RawStore.hasId_exists_iff s _).2 ⟨a, ha, hid⟩)
    rw [RawStore.countId, List.countP_cons]
    rw [RawStore.countId] at ht0
    simp [ht0]

theorem RawStore.write_ids_nodup (s : RawStore) (tag : Nat) (p : Bytes)
    (h : (RawStore.ids s).Nodup) : (RawStore.ids (s.write tag p).2).Nodup := by
  rw [RawStore.write]
  by_cases hin : s.hasId (rawDigest tag p) = true
  · simpa [hin] using h
  · simp only [hin, Bool.false_eq_true, if_false]
    rw [RawStore.ids, List.map_cons, List.nodup_cons]
    refine ⟨?_, h⟩
    intro hmem
    rcases List.mem_map.1 hmem with ⟨e, he, hid⟩
    exact hin ((RawStore.hasId_exists_iff s _).2 ⟨e, he, hid⟩)

theorem RawStore.hasId_write_self (s : RawStore) (tag : Nat) (p : Bytes) :
    RawStore.hasId (s.write tag p).2 (rawDigest tag p) = true := by
  rw [RawStore.write, RawStore.hasId]
  by_cases hin : (List.any s fun e => e.1 == rawDigest tag p) = true
  · simp [RawStore.hasId, hin]
  · simp [RawStore.hasId, hin]

/-- C3: `ObjectStore.write` is idempotent: writing the same payload twice
returns the same ObjectId both times, the second call leaves the store
unchanged, and afterwards the store holds exactly one copy of the object.
Stated for every store whose ids are duplicate-free (true of every store
built by `write`, in particular the empty one). -/
theorem objectStore_write_idempotent (s : RawStore) (tag : Nat) (p : Bytes)
    (h : (RawStore.ids s).Nodup) :
    (s.write tag p).1 = ((s.write tag p).2.write tag p).1 ∧
      ((s.write tag p).2.write tag p).2 = (s.write tag p).2 ∧
      RawStore.countId ((s.write tag p).2.write tag p).2 (s.write tag p).1 = 1 := by
  have hfst1 : (s.write tag p).1 = rawDigest tag p := by
    rw [RawStore.write]
    by_cases hin : s.hasId (rawDigest tag p) = true <;> simp [hin]
  have hfst2 : ((s.write tag p).2.write tag p).1 = rawDigest tag p := by
    rw [RawStore.write]
    by_cases hin : RawStore.hasId (s.write tag p).2 (rawDigest tag p) = true <;>
      simp [hin]
  have hsnd : ((s.write tag p).2.write tag p).2 = (s.write tag p).2 := by
    rw [RawStore.write]
    simp [RawStore.hasId_write_self s tag p]
  refine ⟨by rw [hfst1, hfst2], hsnd, ?_⟩
  rw [hsnd, hfst1]
  exact RawStore.countId_write_self s tag p h

/-- Witness for C3 at the empty store and payload `[1, 2]` with tag `0`. -/
theorem objectStore_write_idempotent_witness :
    (RawStore.ids []).Nodup ∧
      ((RawStore.write [] 0 [1, 2]).1 =
          (RawStore.write (RawStore.write [] 0 [1, 2]).2 0 [1, 2]).1 ∧
        (RawStore.write (RawStore.write [] 0 [1, 2]).2 0 [1, 2]).2 =
          (RawStore.write [] 0 [1, 2]).2 ∧
        RawStore.countId
          (RawStore.write (RawStore.write [] 0 [1, 2]).2 0 [1, 2]).2
          (RawStore.write [] 0 [1, 2]).1 = 1) :=
  ⟨by decide, objectStore_write_idempotent [] 0 [1, 2] (by decide)⟩

theorem Store.writeObj_fst (s : Store) (o : GitObject) :
    (s.writeObj o).1 = digest o := by
  rw [Store.writeObj]
  by_cases hin : s.hasId (digest o) = true <;> simp [hin]

theorem Store.hasId_writeObj_self (s : Store) (o : GitObject) :
    Store.hasId (s.writeObj o).2 (digest o) = true := by
  rw [Store.writeObj, Store.hasId]
  by_cases hin : (List.any s fun e => e.1 == digest o) = true
  · simp [Store.hasId, hin]
  · simp [Store.hasId, hin]

theorem Store.hasId_mono (s : Store) (o : GitObject) (id : Nat)
    (h : Store.hasId s id = true) : Store.hasId (s.writeObj o).2 id = true := by
  rw [Store.writeObj]
  by_cases hin : s.hasId (digest o) = true
  · simpa [hin]
  · simp only [hin, Bool.false_eq_true, if_false]
    rw [Store.hasId] at h ⊢
    simp [List.any_cons, h]

theorem Store.lookupCommit_mem (s : Store) (id : Nat) (cd : CommitData)
    (h : Store.lookupCommit s id = some cd) :
    (id, GitObject.commit cd) ∈ s := by
  rw [Store.lookupCommit] at h
  rcases hf : s.find? (fun e => e.1 == id) with _ | e
  · rw [hf] at h; cases h
  · rw [hf] at h
    have hmem := List.mem_of_find?_eq_some hf
    have hpred := List.find?_some hf
    rcases e with ⟨i, o⟩
    cases o with
    | blob c => cases h
    | tree es => cases h
    | commit cd2 =>
        simp only [Option.some.injEq] at h
        have : i = id := by simpa using hpred
        rw [← this, ← h] at *
        simpa [h] using hmem

theorem Store.hasId_iff (s : Store) (id : Nat) :
    Store.hasId s id = true ↔ ∃ e ∈ s, e.1 = id := by
  simp [Store.hasId, List.any_eq_true]

theorem createInitialCommit_some (sig : Ident) (refName : String)
    (st : RepoState) :
    createInitialCommit (some sig) refName st =
      (.ok (digest (initialCommitObj sig)),
        ⟨(Store.writeObj (Store.writeObj st.store emptyTreeObj).2
            (initialCommitObj sig)).2,
          (refName, digest (initialCommitObj sig)) :: st.refs⟩) := by
  rw [createInitialCommit]
  have htree : Store.hasId (Store.writeObj st.store emptyTreeObj).2
      (Store.writeObj st.store emptyTreeObj).1 = true := by
    rw [Store.writeObj_fst]
    exact Store.hasId_writeObj_self _ _
  rw [CommitGraph.create]
  simp only [List.all_cons, List.all_nil, Bool.and_true, htree, if_pos]
  have hcd : (GitObject.commit
      ⟨(Store.writeObj st.store emptyTreeObj).1, [], sig, sig,
        "Initial commit"⟩) = initialCommitObj sig := by
    rw [Store.writeObj_fst]; rfl
  rw [hcd]
  have hcid : Store.hasId
      (Store.writeObj (Store.writeObj st.store emptyTreeObj).2
        (initialCommitObj sig)).2
      (Store.writeObj (Store.writeObj st.store emptyTreeObj).2
        (initialCommitObj sig)).1 = true := by
    rw [Store.writeObj_fst]
    exact Store.hasId_writeObj_self _ _
  rw [Store.writeObj_fst] at hcid
  rw [updateRef]
  simp [hcid, Store.writeObj_fst]

/-- C7: from any repository state, `createInitialCommit` fails with
`MissingIdentityError` exactly when the author identity cannot be determined;
with an identity present it writes the empty tree, creates the zero-parent
commit referencing it (message "Initial commit") and updates the named ref
to that commit. -/
theorem createInitialCommit_spec :
    (∀ (ident : Option Ident) (refName : String) (st : RepoState),
        (createInitialCommit ident refName st).1 =
            Except.error GitError.missingIdentity ↔ ident = none) ∧
    (∀ (sig : Ident) (refName : String) (st : RepoState),
        createInitialCommit (some sig) refName st =
          (.ok (digest (initialCommitObj sig)),
            ⟨(Store.writeObj (Store.writeObj st.store emptyTreeObj).2
                (initialCommitObj sig)).2,
              (refName, digest (initialCommitObj sig)) :: st.refs⟩) ∧
        resolveRef (createInitialCommit (some sig) refName st).2.refs refName =
          some (digest (initialCommitObj sig)) ∧
        Store.hasId (createInitialCommit (some sig) refName st).2.store
          (digest emptyTreeObj) = true ∧
        Store.hasId (createInitialCommit (some sig) refName st).2.store
          (digest (initialCommitObj sig)) = true) := by
  constructor
  · intro ident refName st
    constructor
    · intro h
      cases ident with
      | none => rfl
      | some sig =>
          rw [createInitialCommit_some] at h
          cases h
    · intro h; subst h; rfl
  · intro sig refName st
    refine ⟨createInitialCommit_some sig refName st, ?_, ?_, ?_⟩
    · rw [createInitialCommit_some]
      simp [resolveRef]
    · rw [createInitialCommit_some]
      exact Store.hasId_mono _ _ _
        (by simpa [Store.writeObj_fst] using
          Store.hasId_writeObj_self st.store emptyTreeObj)
    · rw [createInitialCommit_some]
      exact Store.hasId_writeObj_self _ _

/-- C6: failed operations never move a ref.  If commit creation followed by
the branch update fails at any step, the observable repository state — in
particular the ref mapping — is the state before the operation; and
`RefStore.update` with an id absent from the object store fails with
`DanglingReferenceError`, leaving every previous mapping unchanged. -/
theorem refUpdate_atomicity :
    (∀ (st : RepoState) (name : String) (treeId : Nat) (parents : List Nat)
        (author committer : Ident) (message : String) (e : GitError),
        (commitAndUpdateRef st name treeId parents author committer
            message).1 = .error e →
        (commitAndUpdateRef st name treeId parents author committer
            message).2 = st) ∧
    (∀ (st : RepoState) (name : String) (id : Nat),
        Store.hasId st.store id = false →
        updateRef st name id = (.error .danglingReference, st) ∧
        resolveRef (updateRef st name id).2.refs name =
          resolveRef st.refs name) := by
  constructor
  · intro st name treeId parents author committer message e h
    simp only [commitAndUpdateRef] at h ⊢
    rcases hc : (CommitGraph.create st treeId parents author committer
        message).1 with e2 | cid
    · rfl
    · rw [hc] at h
      dsimp only at h ⊢
      rcases hu : (updateRef (CommitGraph.create st treeId parents author
          committer message).2 name cid).1 with e2 | u
      · rfl
      · rw [hu] at h
        simp at h
  · intro st name id h
    rw [updateRef]
    simp [h]

/-- Witness for C6: in the empty repository, creating a commit whose tree id
is absent fails and leaves the state unchanged, and updating "master" to the
absent id 5 fails with `DanglingReferenceError` without touching the refs. -/
theorem refUpdate_atomicity_witness :
    ((commitAndUpdateRef ⟨[], []⟩ "master" 0 [] ⟨"a", "b", 0⟩ ⟨"a", "b", 0⟩
        "m").2 = (⟨[], []⟩ : RepoState)) ∧
    (updateRef ⟨[], []⟩ "master" 5 =
        (.error .danglingReference, (⟨[], []⟩ : RepoState)) ∧
      resolveRef (updateRef ⟨[], []⟩ "master" 5).2.refs "master" =
        resolveRef ([] : RefStore) "master") :=
  ⟨refUpdate_atomicity.1 ⟨[], []⟩ "master" 0 [] ⟨"a", "b", 0⟩ ⟨"a", "b", 0⟩
      "m" GitError.danglingReference rfl,
    refUpdate_atomicity.2 ⟨[], []⟩ "master" 5 rfl⟩

theorem Store.mem_ids_of_hasId (s : Store) (id : Nat)
    (h : Store.hasId s id = true) : id ∈ Store.ids s := by
  rcases (Store.hasId_iff s id).1 h with ⟨e, he, hid⟩
  exact List.mem_map.2 ⟨e, he, hid⟩

theorem Store.not_mem_ids_of_hasId_false (s : Store) (id : Nat)
    (h : Store.hasId s id = false) : id ∉ Store.ids s := by
  intro hmem
  rcases List.mem_map.1 hmem with ⟨e, he, hid⟩
  have : Store.hasId s id = true := (Store.hasId_iff s id).2 ⟨e, he, hid⟩
  rw [h] at this
  cases this

theorem le_foldr_max (l : List Nat) (a : Nat) (h : a ∈ l) :
    a ≤ l.foldr max 0 := by
  induction l with
  | nil => cases h
  | cons b t ih =>
      rcases List.mem_cons.1 h with rfl | ht
      · exact le_max_left _ _
      · exact le_trans (ih ht) (le_max_right _ _)

theorem hasRank_nil : HasRank [] :=
  ⟨fun _ => 0, by intro id cd hmem; cases hmem⟩

theorem HasRank.writeNonCommit (s : Store) (o : GitObject)
    (ho : ∀ cd : CommitData, o ≠ .commit cd) (h : HasRank s) :
    HasRank (Store.writeObj s o).2 := by
  obtain ⟨rank, hr⟩ := h
  rw [Store.writeObj]
  by_cases hin : s.hasId (digest o) = true
  · simpa [hin] using ⟨rank, hr⟩
  · simp only [hin, Bool.false_eq_true, if_false]
    refine ⟨rank, ?_⟩
    intro id cd hmem p hp
    rcases List.mem_cons.1 hmem with hhead | htail
    · exact absurd (congrArg Prod.snd hhead) (by simpa using (ho cd).symm)
    · rcases hr id cd htail p hp with ⟨hpid, hlt⟩
      exact ⟨by simp [Store.ids, List.mem_cons] at hpid ⊢; right; exact hpid,
        hlt⟩

theorem HasRank.create (s : Store) (refs : RefStore) (treeId : Nat)
    (parents : List Nat) (a c : Ident) (m : String) (h : HasRank s) :
    HasRank (CommitGraph.create ⟨s, refs⟩ treeId parents a c m).2.store := by
  rw [CommitGraph.create]
  by_cases hall :
      ((treeId :: parents).all fun p => Store.hasId s p) = true
  · simp only [hall, if_pos]
    rw [Store.writeObj]
    set cobj : GitObject := .commit ⟨treeId, parents, a, c, m⟩ with hcobj
    by_cases hin : s.hasId (digest cobj) = true
    · simpa [hin] using h
    · simp only [hin, Bool.false_eq_true, if_false]
      obtain ⟨rank, hr⟩ := h
      have hcid : digest cobj ∉ Store.ids s :=
        Store.not_mem_ids_of_hasId_false s _ (by simpa using hin)
      refine ⟨fun x => if x = digest cobj
          then (parents.map rank).foldr max 0 + 1 else rank x, ?_⟩
      intro id cd hmem p hp
      have hparents : ∀ q ∈ parents, q ∈ Store.ids s := by
        intro q hq
        have := (List.all_eq_true.1 hall) q (List.mem_cons_of_mem _ hq)
        exact Store.mem_ids_of_hasId s q this
      rcases List.mem_cons.1 hmem with hhead | htail
      · have hid : id = digest cobj := congrArg Prod.fst hhead
        have hcd : GitObject.commit cd = cobj := congrArg Prod.snd hhead
        have hcd2 : cd = ⟨treeId, parents, a, c, m⟩ := by
          rw [hcobj] at hcd
          exact GitObject.commit.inj hcd
        rw [hcd2] at hp
        have hpids : p ∈ Store.ids s := hparents p hp
        have hpne : p ≠ digest cobj := fun hcontra => hcid (hcontra ▸ hpids)
        constructor
        · simp [Store.ids, List.mem_cons]
          right
          simpa [Store.ids] using hpids
        · dsimp only
          rw [hid, if_neg hpne, if_pos rfl]
          have : rank p ∈ parents.map rank := List.mem_map_of_mem rank hp
          have := le_foldr_max _ _ this
          omega
      · rcases hr id cd htail p hp with ⟨hpid, hlt⟩
        have hpne : p ≠ digest cobj := fun hcontra => hcid (hcontra ▸ hpid)
        have hidne : id ≠ digest cobj := by
          intro hcontra
          exact hcid (hcontra ▸ List.mem_map.2 ⟨(id, .commit cd), htail, rfl⟩)
        constructor
        · simp [Store.ids, List.mem_cons]
          right
          simpa [Store.ids] using hpid
        · dsimp only
          rw [if_neg hpne, if_neg hidne]
          exact hlt
  · simpa [hall] using h

/-- C8: every reachable store state satisfies the creation-order invariant
(`CommitGraph.create` refuses, with `DanglingReferenceError`, any commit with
a parent id absent from the store), and that invariant makes a cycle along
parent links impossible. -/
theorem commitGraph_acyclic :
    (∀ (st : RepoState) (treeId : Nat) (parents : List Nat)
        (a c : Ident) (m : String),
        (∃ p ∈ parents, Store.hasId st.store p = false) →
        (CommitGraph.create st treeId parents a c m).1 =
            .error .danglingReference ∧
          (CommitGraph.create st treeId parents a c m).2 = st) ∧
    (∀ s : Store, ReachableStore s → HasRank s) ∧
    (∀ s : Store, HasRank s → ∀ x : Nat,
        ¬ Relation.TransGen (ParentStep s) x x) := by
  refine ⟨?_, ?_, ?_⟩
  · intro st treeId parents a c m hex
    rcases hex with ⟨p, hp, hfalse⟩
    rw [CommitGraph.create]
    cases hall : ((treeId :: parents).all fun q => Store.hasId st.store q) with
    | false => simp [hall]
    | true =>
        exfalso
        have := (List.all_eq_true.1 hall) p (List.mem_cons_of_mem _ hp)
        rw [hfalse] at this
        cases this
  · intro s hreach
    induction hreach with
    | empty => exact hasRank_nil
    | writeNonCommit s o ho _ ih => exact HasRank.writeNonCommit s o ho ih
    | create s refs treeId parents a c m _ ih =>
        exact HasRank.create s refs treeId parents a c m ih
  · intro s hs x hcyc
    obtain ⟨rank, hr⟩ := hs
    have key : ∀ a b : Nat, Relation.TransGen (ParentStep s) a b →
        rank b < rank a := by
      intro a b h
      induction h with
      | single hstep =>
          rcases hstep with ⟨cd, hm, hp⟩
          exact (hr _ _ hm _ hp).2
      | tail _ hstep ih =>
          rcases hstep with ⟨cd, hm, hp⟩
          exact lt_trans (hr _ _ hm _ hp).2 ih
    exact lt_irrefl _ (key x x hcyc)

/-- Witness for C8: creating a commit in the empty repository with absent
parent 5 fails with `DanglingReferenceError` and changes nothing; the empty
store is reachable, has the invariant, and admits no parent-link cycle. -/
theorem commitGraph_acyclic_witness :
    ((CommitGraph.create ⟨[], []⟩ 0 [5] ⟨"a", "b", 0⟩ ⟨"a", "b", 0⟩ "m").1 =
        .error .danglingReference ∧
      (CommitGraph.create ⟨[], []⟩ 0 [5] ⟨"a", "b", 0⟩ ⟨"a", "b", 0⟩ "m").2 =
        (⟨[], []⟩ : RepoState)) ∧
    HasRank [] ∧
    ¬ Relation.TransGen (ParentStep []) 0 0 :=
  ⟨commitGraph_acyclic.1 ⟨[], []⟩ 0 [5] ⟨"a", "b", 0⟩ ⟨"a", "b", 0⟩ "m"
      ⟨5, by simp, rfl⟩,
    commitGraph_acyclic.2.1 [] ReachableStore.empty,
    commitGraph_acyclic.2.2 []
      (commitGraph_acyclic.2.1 [] ReachableStore.empty) 0⟩

theorem fpchain_unique (s : Store) (c : Nat) (l1 : List Nat)
    (h1 : FPChain s c l1) : ∀ l2, FPChain s c l2 → l1 = l2 := by
  induction h1 with
  | root c cm hlc hpar =>
      intro l2 h2
      cases h2 with
      | root c2 cm2 hlc2 hpar2 => rfl
      | step c2 cm2 p ps l hlc2 hpar2 hrec =>
          rw [hlc] at hlc2
          cases hlc2
          rw [hpar] at hpar2
          cases hpar2
  | step c cm p ps l hlc hpar hrec ih =>
      intro l2 h2
      cases h2 with
      | root c2 cm2 hlc2 hpar2 =>
          rw [hlc] at hlc2
          cases hlc2
          rw [hpar] at hpar2
          cases hpar2
      | step c2 cm2 p2 ps2 l2' hlc2 hpar2 hrec2 =>
          rw [hlc] at hlc2
          cases hlc2
          rw [hpar] at hpar2
          cases hpar2
          rw [ih l2' hrec2]

theorem walkFuel_spec (s : Store) (rank : Nat → Nat)
    (hrank : ∀ id cd, (id, GitObject.commit cd) ∈ s →
      ∀ p ∈ cd.parents, rank p < rank id)
    (hclosed : ∀ id cd, Store.lookupCommit s id = some cd →
      ∀ p ps, cd.parents = p :: ps →
      (Store.lookupCommit s p).isSome = true) :
    ∀ (n c : Nat) (cm : CommitData), Store.lookupCommit s c = some cm →
      rank c < n →
      ∃ l, walkFuel s n c = some l ∧ FPChain s c (l.map Prod.fst) := by
  intro n
  induction n with
  | zero => intro c cm _ hlt; omega
  | succ n ih =>
      intro c cm hlc hlt
      rcases hpar : cm.parents with _ | ⟨p, ps⟩
      · refine ⟨[(c, none)], ?_, ?_⟩
        · simp [walkFuel, hlc, hpar]
        · exact FPChain.root c cm hlc hpar
      · have hp : p ∈ cm.parents := by rw [hpar]; exact List.mem_cons_self p ps
        have hmem := Store.lookupCommit_mem s c cm hlc
        have hrankp : rank p < rank c := hrank c cm hmem p hp
        have hlp := hclosed c cm hlc p ps hpar
        rcases hlp2 : Store.lookupCommit s p with _ | pm
        · rw [hlp2] at hlp; cases hlp
        · have hlt2 : rank p < n := by omega
          rcases ih p pm hlp2 hlt2 with ⟨l', hw, hchain⟩
          refine ⟨(c, some (pm.tree, cm.tree)) :: l', ?_, ?_⟩
          · simp [walkFuel, hlc, hpar, hlp2, hw]
          · simpa using FPChain.step c cm p ps (l'.map Prod.fst) hlc hpar
              hchain

/-- C1: on a finite commit graph whose parent links admit a strictly
decreasing rank (acyclicity) and are closed under first parents, if the ref
resolves to a stored commit then the history walk terminates — fuel
`rank c + 1` already suffices — and the commits it yields are exactly the
first-parent chain from the resolved commit down to the root, newest
first. -/
theorem walkHistory_first_parent_chain (st : RepoState) (name : String)
    (c : Nat) (cm : CommitData) (rank : Nat → Nat)
    (hrank : ∀ id cd, (id, GitObject.commit cd) ∈ st.store →
      ∀ p ∈ cd.parents, rank p < rank id)
    (hclosed : ∀ id cd, Store.lookupCommit st.store id = some cd →
      ∀ p ps, cd.parents = p :: ps →
      (Store.lookupCommit st.store p).isSome = true)
    (hres : resolveRef st.refs name = some c)
    (hlc : Store.lookupCommit st.store c = some cm) :
    ∃ l, walkHistory st name (rank c + 1) = some l ∧
      FPChain st.store c (l.map Prod.fst) ∧
      ∀ l', FPChain st.store c l' → l' = l.map Prod.fst := by
  rcases walkFuel_spec st.store rank hrank hclosed (rank c + 1) c cm hlc
    (by omega) with ⟨l, hw, hchain⟩
  refine ⟨l, ?_, hchain, ?_⟩
  · rw [walkHistory, hres]
    exact hw
  · intro l' hl'
    exact fpchain_unique st.store c l' hl' (l.map Prod.fst) hchain

/-- Witness for C1: a two-commit store, commit 2 with first parent 1, commit
1 the root, "master" at 2, rank the identity. -/
theorem walkHistory_first_parent_chain_witness :
    ∃ l, walkHistory
        ⟨[(2, .commit ⟨0, [1], ⟨"a", "b", 0⟩, ⟨"a", "b", 0⟩, "B"⟩),
          (1, .commit ⟨0, [], ⟨"a", "b", 0⟩, ⟨"a", "b", 0⟩, "A"⟩)],
         [("master", 2)]⟩ "master" (2 + 1) = some l ∧
      FPChain [(2, .commit ⟨0, [1], ⟨"a", "b", 0⟩, ⟨"a", "b", 0⟩, "B"⟩),
          (1, .commit ⟨0, [], ⟨"a", "b", 0⟩, ⟨"a", "b", 0⟩, "A"⟩)]
        2 (l.map Prod.fst) ∧
      ∀ l', FPChain [(2, .commit ⟨0, [1], ⟨"a", "b", 0⟩, ⟨"a", "b", 0⟩, "B"⟩),
          (1, .commit ⟨0, [], ⟨"a", "b", 0⟩, ⟨"a", "b", 0⟩, "A"⟩)]
        2 l' → l' = l.map Prod.fst :=
  walkHistory_first_parent_chain
    ⟨[(2, .commit ⟨0, [1], ⟨"a", "b", 0⟩, ⟨"a", "b", 0⟩, "B"⟩),
      (1, .commit ⟨0, [], ⟨"a", "b", 0⟩, ⟨"a", "b", 0⟩, "A"⟩)],
     [("master", 2)]⟩ "master" 2
    ⟨0, [1], ⟨"a", "b", 0⟩, ⟨"a", "b", 0⟩, "B"⟩ (fun x => x)
    (by
      intro id cd hmem p hp
      simp only [List.mem_cons, List.not_mem_nil, or_false,
        Prod.mk.injEq, GitObject.commit.injEq] at hmem
      rcases hmem with ⟨rfl, rfl⟩ | ⟨rfl, rfl⟩
      · simp only [List.mem_singleton] at hp
        subst hp
        decide
      · simp at hp)
    (by
      intro id cd hlc p ps hpar
      have hmem := Store.lookupCommit_mem _ id cd hlc
      simp only [List.mem_cons, List.not_mem_nil, or_false,
        Prod.mk.injEq, GitObject.commit.injEq] at hmem
      rcases hmem with ⟨rfl, rfl⟩ | ⟨rfl, rfl⟩
      · simp only [CommitData.mk.injEq] at hpar ⊢
        have : p = 1 := by
          have := hpar
          simp at this
          exact this.1.symm ▸ rfl
        subst this
        decide
      · simp at hpar)
    (by decide) (by decide)

theorem digest_tree_ne_digest_commit (es : List TreeEntry) (cd : CommitData) :
    digest (.tree es) ≠ digest (.commit cd) := by
  simp only [digest]
  omega

theorem Store.lookupCommit_cons_commit (id : Nat) (cd : CommitData)
    (t : Store) :
    Store.lookupCommit ((id, GitObject.commit cd) :: t) id = some cd := by
  rw [Store.lookupCommit]
  simp [List.find?]

/-- C2: a root commit is yielded with no patch — the walk stops at a commit
with zero parents before computing any diff, synthetic or otherwise; and
after creating the initial commit (empty tree, message "Initial commit") in
an empty repository, `walkHistory("master")` yields exactly one element,
that commit, with no patch. -/
theorem walk_root_no_patch :
    (∀ (s : Store) (c : Nat) (cm : CommitData) (n : Nat),
        Store.lookupCommit s c = some cm → cm.parents = [] →
        walkFuel s (n + 1) c = some [(c, none)]) ∧
    (∀ sig : Ident,
        createInitialCommit (some sig) "master" ⟨[], []⟩ =
          (.ok (digest (initialCommitObj sig)),
            ⟨[(digest (initialCommitObj sig), initialCommitObj sig),
              (digest emptyTreeObj, emptyTreeObj)],
             [("master", digest (initialCommitObj sig))]⟩) ∧
        walkHistory
          ⟨[(digest (initialCommitObj sig), initialCommitObj sig),
            (digest emptyTreeObj, emptyTreeObj)],
           [("master", digest (initialCommitObj sig))]⟩ "master" 1 =
          some [(digest (initialCommitObj sig), none)]) := by
  have hroot : ∀ (s : Store) (c : Nat) (cm : CommitData) (n : Nat),
      Store.lookupCommit s c = some cm → cm.parents = [] →
      walkFuel s (n + 1) c = some [(c, none)] := by
    intro s c cm n hlc hpar
    simp [walkFuel, hlc, hpar]
  refine ⟨hroot, ?_⟩
  intro sig
  have hne : (digest emptyTreeObj ==
      digest (initialCommitObj sig)) = false := by
    simp only [beq_eq_false_iff_ne, ne_eq]
    exact digest_tree_ne_digest_commit [] _
  have hstep1 : Store.writeObj ([] : Store) emptyTreeObj =
      (digest emptyTreeObj, [(digest emptyTreeObj, emptyTreeObj)]) := by
    rw [Store.writeObj]
    simp [Store.hasId]
  have hstep2 : Store.writeObj [(digest emptyTreeObj, emptyTreeObj)]
      (initialCommitObj sig) =
      (digest (initialCommitObj sig),
        [(digest (initialCommitObj sig), initialCommitObj sig),
         (digest emptyTreeObj, emptyTreeObj)]) := by
    rw [Store.writeObj]
    simp [Store.hasId, hne]
  have hlc : Store.lookupCommit
      [(digest (initialCommitObj sig), initialCommitObj sig),
       (digest emptyTreeObj, emptyTreeObj)]
      (digest (initialCommitObj sig)) =
      some ⟨digest emptyTreeObj, [], sig, sig, "Initial commit"⟩ :=
    Store.lookupCommit_cons_commit (digest (initialCommitObj sig))
      ⟨digest emptyTreeObj, [], sig, sig, "Initial commit"⟩
      [(digest emptyTreeObj, emptyTreeObj)]
  constructor
  · rw [createInitialCommit_some]
    dsimp only
    rw [hstep1]
    dsimp only
    rw [hstep2]
  · rw [walkHistory]
    have hres : resolveRef [("master", digest (initialCommitObj sig))]
        "master" = some (digest (initialCommitObj sig)) := by
      simp [resolveRef]
    rw [hres]
    exact hroot _ _ _ 0 hlc rfl

/-- Witness for C2 at a one-commit store and the identity ⟨"a", "b", 0⟩. -/
theorem walk_root_no_patch_witness :
    walkFuel [(1, .commit ⟨0, [], ⟨"a", "b", 0⟩, ⟨"a", "b", 0⟩, "A"⟩)]
        (0 + 1) 1 = some [(1, none)] ∧
      (createInitialCommit (some ⟨"a", "b", 0⟩) "master" ⟨[], []⟩ =
          (.ok (digest (initialCommitObj ⟨"a", "b", 0⟩)),
            ⟨[(digest (initialCommitObj ⟨"a", "b", 0⟩),
                initialCommitObj ⟨"a", "b", 0⟩),
              (digest emptyTreeObj, emptyTreeObj)],
             [("master", digest (initialCommitObj ⟨"a", "b", 0⟩))]⟩) ∧
        walkHistory
          ⟨[(digest (initialCommitObj ⟨"a", "b", 0⟩),
              initialCommitObj ⟨"a", "b", 0⟩),
            (digest emptyTreeObj, emptyTreeObj)],
           [("master", digest (initialCommitObj ⟨"a", "b", 0⟩))]⟩
          "master" 1 =
          some [(digest (initialCommitObj ⟨"a", "b", 0⟩), none)]) :=
  ⟨walk_root_no_patch.1 [(1, .commit ⟨0, [], ⟨"a", "b", 0⟩, ⟨"a", "b", 0⟩,
      "A"⟩)] 1 ⟨0, [], ⟨"a", "b", 0⟩, ⟨"a", "b", 0⟩, "A"⟩ 0 rfl rfl,
    walk_root_no_patch.2 ⟨"a", "b", 0⟩⟩

theorem pairwise_name_lt_of_le_of_ne (l : List TreeEntry)
    (h1 : l.Pairwise (fun a b => a.name ≤ b.name))
    (h2 : l.Pairwise (fun a b => a.name ≠ b.name)) :
    l.Pairwise (fun a b => a.name < b.name) := by
  induction l with
  | nil => exact List.Pairwise.nil
  | cons a t ih =>
      rcases List.pairwise_cons.1 h1 with ⟨ha1, ht1⟩
      rcases List.pairwise_cons.1 h2 with ⟨ha2, ht2⟩
      exact List.pairwise_cons.2
        ⟨fun b hb => lt_of_le_of_ne (ha1 b hb) (ha2 b hb), ih ht1 ht2⟩

theorem insertionSort_eq_of_perm (l1 l2 : List TreeEntry)
    (hp : l1.Perm l2) (hn : (l1.map TreeEntry.name).Nodup) :
    l1.insertionSort (fun a b => a.name ≤ b.name) =
      l2.insertionSort (fun a b => a.name ≤ b.name) := by
  have hperm : (l1.insertionSort (fun a b => a.name ≤ b.name)).Perm
      (l2.insertionSort (fun a b => a.name ≤ b.name)) :=
    (List.perm_insertionSort _ l1).trans
      (hp.trans (List.perm_insertionSort _ l2).symm)
  have hstrict : ∀ l : List TreeEntry, (l.map TreeEntry.name).Nodup →
      List.Sorted (fun a b => a.name < b.name)
        (l.insertionSort (fun a b => a.name ≤ b.name)) := by
    intro l hl
    have hsle : List.Sorted (fun a b : TreeEntry => a.name ≤ b.name)
        (l.insertionSort (fun a b => a.name ≤ b.name)) :=
      List.sorted_insertionSort _ l
    have hnd : ((l.insertionSort
        (fun a b => a.name ≤ b.name)).map TreeEntry.name).Nodup := by
      have := (List.perm_insertionSort
        (fun a b : TreeEntry => a.name ≤ b.name) l).map TreeEntry.name
      exact this.nodup_iff.2 hl
    have hne : (l.insertionSort (fun a b => a.name ≤ b.name)).Pairwise
        (fun a b => a.name ≠ b.name) := List.pairwise_map.1 hnd
    exact pairwise_name_lt_of_le_of_ne _ hsle hne
  have hn2 : (l2.map TreeEntry.name).Nodup := (hp.map _).nodup_iff.1 hn
  exact List.eq_of_perm_of_sorted hperm (hstrict l1 hn) (hstrict l2 hn2)

/-- C4: `TreeBuilder.build` is order-independent — for entry lists with
pairwise-unique names, any two permutations of the same entries produce the
same ObjectId (and the same store), because entries are serialized in
name-sorted order. -/
theorem treeBuilder_build_perm (s : Store) (l1 l2 : List TreeEntry)
    (hp : l1.Perm l2) (hn : (l1.map TreeEntry.name).Nodup) :
    TreeBuilder.build s l1 = TreeBuilder.build s l2 := by
  have hn2 : (l2.map TreeEntry.name).Nodup := (hp.map _).nodup_iff.1 hn
  rw [TreeBuilder.build, TreeBuilder.build, if_pos hn, if_pos hn2,
    insertionSort_eq_of_perm l1 l2 hp hn]

/-- Witness for C4 at two permutations of a two-entry set. -/
theorem treeBuilder_build_perm_witness :
    TreeBuilder.build []
        [⟨"b", .file, 1⟩, ⟨"a", .file, 2⟩] =
      TreeBuilder.build []
        [⟨"a", .file, 2⟩, ⟨"b", .file, 1⟩] :=
  treeBuilder_build_perm [] [⟨"b", .file, 1⟩, ⟨"a", .file, 2⟩]
    [⟨"a", .file, 2⟩, ⟨"b", .file, 1⟩]
    (List.Perm.swap _ _ _) (by decide)

/-- C9: `main` returns exit code 0 on every execution, also when repository
setup, opening, or the walk fails and the exception is caught; the process
exit status never signals failure. -/
theorem main_always_zero : ∀ e : MainEnv, mainExit e = 0 := by
  intro e
  cases hb : mainBody e <;> simp [mainExit, hb]

/-- C10 fails on the code: on every exit path past the second
`git_index_free` guard (line 96) — in particular the fully successful run —
the index handle is freed twice, not exactly once; only the path that fails
at `git_index_write_tree` frees it once.  The signature and tree handles are
released once on the paths that acquired them. -/
theorem create_initial_commit_index_double_free :
    (createInitialCommitFrees ⟨true, true, true, true, true⟩).count
        FreeEvent.index = 2 ∧
    (createInitialCommitFrees ⟨true, true, true, false, true⟩).count
        FreeEvent.index = 2 ∧
    (createInitialCommitFrees ⟨true, true, false, true, true⟩).count
        FreeEvent.index = 1 ∧
    (createInitialCommitFrees ⟨true, true, true, true, true⟩).count
        FreeEvent.sig = 1 ∧
    (createInitialCommitFrees ⟨true, true, true, true, true⟩).count
        FreeEvent.tree = 1 := by
  decide

mutual
theorem diffObj_self (pre : List String) (a : TObj) : diffObj pre a a = [] := by
  cases a with
  | blob i => simp [diffObj]
  | tree t => simpa [diffObj] using diffEntries_self pre t
termination_by sizeOf a
theorem diffEntries_self (pre : List String) (e : TEntries) :
    diffEntries pre e e = [] := by
  cases e with
  | nil => simp [diffEntries]
  | cons n o r =>
      have h1 := diffObj_self (pre ++ [n]) o
      have h2 := diffEntries_self pre r
      simp [diffEntries, h1, h2]
termination_by sizeOf e
end

mutual
theorem diffObj_mirror (pre : List String) (a b : TObj) :
    (diffObj pre a b).Perm ((diffObj pre b a).map mirrorChange) := by
  cases a with
  | blob i =>
      cases b with
      | blob j =>
          by_cases h : i = j
          · subst h
            simp [diffObj]
          · have h2 : ¬ j = i := fun hc => h hc.symm
            simp only [diffObj, if_neg h, if_neg h2, List.map_cons,
              List.map_nil, mirrorChange]
            exact List.Perm.refl _
      | tree t =>
          simp only [diffObj, List.map_cons, List.map_nil, mirrorChange]
          exact List.Perm.swap _ _ _
  | tree s =>
      cases b with
      | blob j =>
          simp only [diffObj, List.map_cons, List.map_nil, mirrorChange]
          exact List.Perm.swap _ _ _
      | tree t =>
          simpa [diffObj] using diffEntries_mirror pre s t
termination_by sizeOf a + sizeOf b
theorem diffEntries_mirror (pre : List String) (a b : TEntries) :
    (diffEntries pre a b).Perm ((diffEntries pre b a).map mirrorChange) := by
  cases a with
  | nil =>
      cases b with
      | nil => simp [diffEntries]
      | cons n o r =>
          have ih := diffEntries_mirror pre .nil r
          simp only [diffEntries, List.map_cons, mirrorChange]
          exact List.Perm.cons _ ih
  | cons n1 o1 r1 =>
      cases b with
      | nil =>
          have ih := diffEntries_mirror pre r1 .nil
          simp only [diffEntries, List.map_cons, mirrorChange]
          exact List.Perm.cons _ ih
      | cons n2 o2 r2 =>
          rcases lt_trichotomy n1 n2 with h | h | h
          · have hn : ¬ n2 < n1 := lt_asymm h
            have ih := diffEntries_mirror pre r1 (.cons n2 o2 r2)
            simp only [diffEntries, if_pos h, if_neg hn, List.map_cons,
              mirrorChange]
            exact List.Perm.cons _ ih
          · subst h
            have hn : ¬ n1 < n1 := lt_irrefl n1
            have ih1 := diffObj_mirror (pre ++ [n1]) o1 o2
            have ih2 := diffEntries_mirror pre r1 r2
            simp only [diffEntries, if_neg hn, List.map_append]
            exact List.Perm.append ih1 ih2
          · have hn : ¬ n1 < n2 := lt_asymm h
            have ih := diffEntries_mirror pre (.cons n1 o1 r1) r2
            simp only [diffEntries, if_pos h, if_neg hn, List.map_cons,
              mirrorChange]
            exact List.Perm.cons _ ih
termination_by sizeOf a + sizeOf b
end

theorem changePath_mirror (c : PathChange) :
    changePath (mirrorChange c) = changePath c := by
  cases c <;> rfl

/-- C5: `diffTrees(A, A)` is empty, and `diffTrees(A, B)` is, up to
reordering, exactly `diffTrees(B, A)` with every Added turned into Removed
and conversely and every Modified mirrored — in particular both report the
same multiset of paths. -/
theorem diffTrees_roundtrip (a b : TObj) :
    diffTrees a a = [] ∧
    (diffTrees a b).Perm ((diffTrees b a).map mirrorChange) ∧
    ((diffTrees a b).map changePath).Perm
      ((diffTrees b a).map changePath) := by
  refine ⟨diffObj_self [] a, diffObj_mirror [] a b, ?_⟩
  have h := (diffObj_mirror [] a b).map changePath
  rw [List.map_map] at h
  have hc : changePath ∘ mirrorChange = changePath :=
    funext changePath_mirror
  rw [hc] at h
  exact h


end GitTool
